import Mathlib

/-!
Verification of the Salsa20js core (`src/salsa20.js`) against its
natural-language specification.  Machine words are modelled as `Nat`
with explicit reduction modulo `2 ^ 32` wherever the JavaScript code
clamps a value by storing it into a `Uint32Array` (or `Uint8Array`,
reduction modulo `2 ^ 8`).  Byte sequences are `List Nat`.  Out-of-range
typed-array reads yield the default `0` (`List.getD`), and out-of-range
writes are dropped (`List.set`), matching JavaScript typed-array
semantics.
-/

namespace Salsa20

/-- Salsa20.core.util.outputByteLength: the hash input/output size. -/
def outputByteLength : Nat := 64

/-- Salsa20.core.util.maxInteger: 2^53 - 1, JavaScript's Number.MAX_SAFE_INTEGER. -/
def maxInteger : Nat := 2 ^ 53 - 1

/-- Salsa20.core.util.sumWords: adds two words, the result clamped to 32 bits
by the Uint32Array store. -/
def sumWords (a b : Nat) : Nat := (a + b) % 2 ^ 32

/-- Salsa20.core.util.xorWords: XORs two words, the result clamped to 32 bits. -/
def xorWords (a b : Nat) : Nat := (a ^^^ b) % 2 ^ 32

/-- Salsa20.core.util.leftRotate: `(wordA << n | wordA >>> (32 - n))` clamped
to 32 bits.  JavaScript first coerces `wordA` to 32 bits, the left shift
keeps the low 32 bits, and the unsigned right shift is division. -/
def leftRotate (a n : Nat) : Nat :=
  ((a % 2 ^ 32 * 2 ^ n) % 2 ^ 32 ||| a % 2 ^ 32 / 2 ^ (32 - n)) % 2 ^ 32

/-- Salsa20.core.quarterRound: returns `(z0, z1, z2, z3)` where the code
fills `zWords[1]`, `zWords[2]`, `zWords[3]`, `zWords[0]` in that order. -/
def quarterRound (y0 y1 y2 y3 : Nat) : Nat × Nat × Nat × Nat :=
  let z1 := xorWords y1 (leftRotate (sumWords y0 y3) 7)
  let z2 := xorWords y2 (leftRotate (sumWords z1 y0) 9)
  let z3 := xorWords y3 (leftRotate (sumWords z2 z1) 13)
  let z0 := xorWords y0 (leftRotate (sumWords z3 z2) 18)
  (z0, z1, z2, z3)

/-- Salsa20.core.rowRound: four quarter-rounds on the row index groups of a
16-word state, all reading the input state `y` and writing a fresh state. -/
def rowRound (y : List Nat) : List Nat :=
  let q0 := quarterRound (y.getD 0 0) (y.getD 1 0) (y.getD 2 0) (y.getD 3 0)
  let q1 := quarterRound (y.getD 5 0) (y.getD 6 0) (y.getD 7 0) (y.getD 4 0)
  let q2 := quarterRound (y.getD 10 0) (y.getD 11 0) (y.getD 8 0) (y.getD 9 0)
  let q3 := quarterRound (y.getD 15 0) (y.getD 12 0) (y.getD 13 0) (y.getD 14 0)
  [q0.1, q0.2.1, q0.2.2.1, q0.2.2.2,
   q1.2.2.2, q1.1, q1.2.1, q1.2.2.1,
   q2.2.2.1, q2.2.2.2, q2.1, q2.2.1,
   q3.2.1, q3.2.2.1, q3.2.2.2, q3.1]

/-- Salsa20.core.columnRound: four quarter-rounds on the column index groups
of a 16-word state, all reading the input state `x` and writing a fresh state. -/
def columnRound (x : List Nat) : List Nat :=
  let q0 := quarterRound (x.getD 0 0) (x.getD 4 0) (x.getD 8 0) (x.getD 12 0)
  let q1 := quarterRound (x.getD 5 0) (x.getD 9 0) (x.getD 13 0) (x.getD 1 0)
  let q2 := quarterRound (x.getD 10 0) (x.getD 14 0) (x.getD 2 0) (x.getD 6 0)
  let q3 := quarterRound (x.getD 15 0) (x.getD 3 0) (x.getD 7 0) (x.getD 11 0)
  [q0.1, q1.2.2.2, q2.2.2.1, q3.2.1,
   q0.2.1, q1.1, q2.2.2.2, q3.2.2.1,
   q0.2.2.1, q1.2.1, q2.1, q3.2.2.2,
   q0.2.2.2, q1.2.2.1, q2.2.1, q3.1]

/-- Salsa20.core.doubleRound: a column-round followed by a row-round. -/
def doubleRound (x : List Nat) : List Nat := rowRound (columnRound x)

/-- Salsa20.core.littleEndian: `b0 + 2^8 b1 + 2^16 b2 + 2^24 b3`, each partial
sum stored into (hence clamped by) a Uint32Array cell. -/
def littleEndian (b0 b1 b2 b3 : Nat) : Nat :=
  (((b0 % 2 ^ 32 + 2 ^ 8 * b1) % 2 ^ 32 + 2 ^ 16 * b2) % 2 ^ 32 + 2 ^ 24 * b3) % 2 ^ 32

/-- Salsa20.core.littleEndianInverse: the four bytes of a word,
least-significant first. -/
def littleEndianInverse (w : Nat) : List Nat :=
  let w' := w % 2 ^ 32
  [w' % 2 ^ 8, w' / 2 ^ 8 % 2 ^ 8, w' / 2 ^ 16 % 2 ^ 8, w' / 2 ^ 24 % 2 ^ 8]

/-- Salsa20.core.hash: decode 16 little-endian words, apply doubleRound 10
times, add each post-round word to the matching pre-round word, and encode
the 16 sums back to bytes in index order. -/
def hash (x : List Nat) : List Nat :=
  let xWords := (List.range 16).map (fun j =>
    littleEndian (x.getD (4 * j) 0) (x.getD (4 * j + 1) 0)
      (x.getD (4 * j + 2) 0) (x.getD (4 * j + 3) 0))
  let zWords := doubleRound^[10] xWords
  (List.range 16).flatMap (fun i =>
    littleEndianInverse (sumWords (zWords.getD i 0) (xWords.getD i 0)))

/-- Salsa20.core.util.updateArray: writes the bytes of `src` into `arr`
starting at index `start`; writes past the end of `arr` are dropped, as for
a JavaScript typed array (`List.set` leaves the list unchanged when the
index is out of range). -/
def updateArray : List Nat → List Nat → Nat → List Nat
  | arr, [], _ => arr
  | arr, v :: src, start => updateArray (arr.set start v) src (start + 1)

/-- Salsa20.core.constants16: tau0..tau3, the ASCII quarters of
the string with the 16-byte-key expansion label. -/
def constants16 : List (List Nat) :=
  [[101, 120, 112, 97], [110, 100, 32, 49], [54, 45, 98, 121], [116, 101, 32, 107]]

/-- Salsa20.core.constants32: sigma0..sigma3, the ASCII quarters of
the string with the 32-byte-key expansion label. -/
def constants32 : List (List Nat) :=
  [[101, 120, 112, 97], [110, 100, 32, 51], [50, 45, 98, 121], [116, 101, 32, 107]]

/-- Salsa20.core.expansion: assembles the 64-byte hash input from the
constants, key material and the 16-byte nonce/counter field, exactly at the
offsets the code uses, then hashes it. -/
def expansion (nonce key0 key1 : List Nat) : List Nat :=
  let inputBytes := List.replicate 64 0
  if key1.length ≠ 0 then
    hash (updateArray (updateArray (updateArray (updateArray (updateArray
      (updateArray (updateArray inputBytes (constants32.getD 0 []) 0) key0 4)
      (constants32.getD 1 []) 20) nonce 24) (constants32.getD 2 []) 40) key1 44)
      (constants32.getD 3 []) 60)
  else
    hash (updateArray (updateArray (updateArray (updateArray (updateArray
      (updateArray (updateArray inputBytes (constants16.getD 0 []) 0) key0 4)
      (constants16.getD 1 []) 20) nonce 24) (constants16.getD 2 []) 40) key0 44)
      (constants16.getD 3 []) 60)

/-- Salsa20.core.util.splitKey: a 16-byte key is returned with an empty
second half; otherwise the loop copies bytes 0..15 into key0 and 16..31
into key1 (out-of-range reads store 0, as in the JavaScript typed arrays). -/
def splitKey (key : List Nat) : List Nat × List Nat :=
  if key.length = 16 then (key, [])
  else ((List.range 16).map (fun i => key.getD i 0),
        (List.range 16).map (fun i => key.getD (16 + i) 0))

/-- Fuel-indexed digit extraction; the fuel only bounds the recursion depth
and any fuel of at least `n` gives the hexadecimal digits of `n`. -/
def toHexDigitsAux : Nat → Nat → List Nat
  | 0, n => [n % 16]
  | fuel + 1, n => if n < 16 then [n] else toHexDigitsAux fuel (n / 16) ++ [n % 16]

/-- Hexadecimal digits of a number, most significant first: models
JavaScript `num.toString(16)` (restricted to the digit values). -/
def toHexDigits (n : Nat) : List Nat := toHexDigitsAux n n

/-- Salsa20.core.util.leftPadding specialised to the zero digit: pads a
digit list on the left to `total` digits, returning it unchanged when it is
already long enough. -/
def leftPadding (digits : List Nat) (total : Nat) : List Nat :=
  if total ≤ digits.length then digits
  else List.replicate (total - digits.length) 0 ++ digits

/-- Salsa20.core.util.hexToBytes on a digit list: consecutive pairs of hex
digits become one byte each. -/
def hexPairsToBytes : List Nat → List Nat
  | h :: l :: rest => (h * 16 + l) :: hexPairsToBytes rest
  | _ => []

/-- Salsa20.core.util.numToEightByteArray: hex-encode the number, left-pad
the hex string to 16 digits, and decode the digit pairs to bytes. -/
def numToEightByteArray (num : Nat) : List Nat :=
  hexPairsToBytes (leftPadding (toHexDigits num) 16)

/-- Salsa20.core.generateKeystream: ceil(lengthRequired / 64) blocks, block
`b` being the expansion of the 16-byte field holding the nonce in bytes
0..7 and `numToEightByteArray (counter + b)` in bytes 8..15. -/
def generateKeystream (key : List Nat) (lengthRequired : Nat) (nonce : List Nat)
    (counter : Nat) : List Nat :=
  let keys := splitKey key
  let numBlocksToGenerate := (lengthRequired + 63) / 64
  (List.range numBlocksToGenerate).foldl (fun acc b =>
    let counterAndNonceBytes :=
      updateArray (updateArray (List.replicate 16 0) nonce 0)
        (numToEightByteArray (counter + b)) 8
    acc ++ expansion counterAndNonceBytes keys.1 keys.2) []

/-- Salsa20.core.xorKeystreamAndMessage: byte `i` of the output is the XOR
of keystream byte `i` and message byte `i`, clamped to a byte by the
Uint8Array store; the output has exactly `messageLength` bytes. -/
def xorKeystreamAndMessage (keystreamBytes messageBytes : List Nat)
    (messageLength : Nat) : List Nat :=
  (List.range messageLength).map (fun i =>
    (keystreamBytes.getD i 0 ^^^ messageBytes.getD i 0) % 2 ^ 8)

/-- Salsa20.core.encryption: XOR the message with a keystream of (at least)
the message's length. -/
def encryption (key message nonce : List Nat) (counter : Nat) : List Nat :=
  xorKeystreamAndMessage (generateKeystream key message.length nonce counter)
    message message.length

/-- Salsa20.core.util.parseKey restricted to byte-array input: accepts only
16- or 32-byte keys. -/
def parseKey (key : List Nat) : Except String (List Nat) :=
  if key.length = 16 ∨ key.length = 32 then Except.ok key
  else Except.error "Incorrect key length, only 16 bytes (128 bits) or 32 bytes (256 bits) accepted"

/-- Salsa20.core.util.parseMessage restricted to byte-array input: rejects
messages longer than maxInteger * 64 bytes. -/
def parseMessage (message : List Nat) : Except String (List Nat) :=
  if message.length > maxInteger * outputByteLength then
    Except.error "Should not encrypt more than 512 petabytes of data under a single nonce"
  else Except.ok message

/-- Salsa20.core.util.parseNonce restricted to byte-array input: accepts
exactly 8 bytes. -/
def parseNonce (nonce : List Nat) : Except String (List Nat) :=
  if nonce.length = 8 then Except.ok nonce
  else Except.error "Incorrect parameter for the nonce"

/-- Salsa20.core.util.parseCounter: rejects a negative counter, then rejects
the call when the message is longer than `(maxInteger - counter) * 64 + 64`
keystream bytes (computed in exact signed arithmetic, as the JavaScript
float arithmetic is exact on this range); otherwise returns the counter. -/
def parseCounter (counter : Int) (messageLength : Nat) : Except String Nat :=
  if counter < 0 then
    Except.error "The counter size should be an integer from 0 to 9007199254740991"
  else if (messageLength : Int) > ((maxInteger : Int) - counter) * 64 + 64 then
    Except.error "The message is longer than the number of keystream bytes that can be generated from this start counter position"
  else
    Except.ok counter.toNat

/-- Salsa20.encrypt on already-byte-array inputs: normalise the inputs in
the code's order, then run the core encryption; any parse error aborts the
call with no output. -/
def encrypt (key message nonce : List Nat) (counter : Int) :
    Except String (List Nat) := do
  let k ← parseKey key
  let m ← parseMessage message
  let n ← parseNonce nonce
  let c ← parseCounter counter m.length
  pure (encryption k m n c)

/-- Writes the four components of a quarter-round result into the four given
positions of a state; used by the spec-side round definitions below. -/
def setQuad (s : List Nat) (p : Nat × Nat × Nat × Nat) (i0 i1 i2 i3 : Nat) : List Nat :=
  (((s.set i0 p.1).set i1 p.2.1).set i2 p.2.2.1).set i3 p.2.2.2

/-- Spec-side row-round, following the spec's words: quarter-round is applied
to the index groups (0,1,2,3), (5,6,7,4), (10,11,8,9), (15,12,13,14) of the
pre-transform state, each group's four results written back to those same
positions of a fresh state buffer. -/
def rowRoundSpec (y : List Nat) : List Nat :=
  let s0 := List.replicate 16 0
  let s1 := setQuad s0 (quarterRound (y.getD 0 0) (y.getD 1 0) (y.getD 2 0) (y.getD 3 0)) 0 1 2 3
  let s2 := setQuad s1 (quarterRound (y.getD 5 0) (y.getD 6 0) (y.getD 7 0) (y.getD 4 0)) 5 6 7 4
  let s3 := setQuad s2 (quarterRound (y.getD 10 0) (y.getD 11 0) (y.getD 8 0) (y.getD 9 0)) 10 11 8 9
  setQuad s3 (quarterRound (y.getD 15 0) (y.getD 12 0) (y.getD 13 0) (y.getD 14 0)) 15 12 13 14

/-- Spec-side column-round, following the spec's words: quarter-round is
applied to the index groups (0,4,8,12), (5,9,13,1), (10,14,2,6), (15,3,7,11)
of the pre-transform state, each group's four results written back to those
same positions of a fresh state buffer. -/
def columnRoundSpec (x : List Nat) : List Nat :=
  let s0 := List.replicate 16 0
  let s1 := setQuad s0 (quarterRound (x.getD 0 0) (x.getD 4 0) (x.getD 8 0) (x.getD 12 0)) 0 4 8 12
  let s2 := setQuad s1 (quarterRound (x.getD 5 0) (x.getD 9 0) (x.getD 13 0) (x.getD 1 0)) 5 9 13 1
  let s3 := setQuad s2 (quarterRound (x.getD 10 0) (x.getD 14 0) (x.getD 2 0) (x.getD 6 0)) 10 14 2 6
  setQuad s3 (quarterRound (x.getD 15 0) (x.getD 3 0) (x.getD 7 0) (x.getD 11 0)) 15 3 7 11

/-- Spec-side hash, following the spec's words: decode the 64 input bytes
into 16 words little-endian (word = b0 + 2^8 b1 + 2^16 b2 + 2^24 b3), apply
doubleRound exactly 10 times sequentially, add each post-round word to the
corresponding pre-round word mod 2^32, and encode the 16 result words back
to bytes with littleEndianInverse in index order. -/
def hashSpec (x : List Nat) : List Nat :=
  let xWords := (List.range 16).map (fun j =>
    x.getD (4 * j) 0 + 2 ^ 8 * x.getD (4 * j + 1) 0 +
      2 ^ 16 * x.getD (4 * j + 2) 0 + 2 ^ 24 * x.getD (4 * j + 3) 0)
  let zWords := doubleRound^[10] xWords
  (List.range 16).flatMap (fun i =>
    littleEndianInverse ((zWords.getD i 0 + xWords.getD i 0) % 2 ^ 32))

/-- Spec-side counter serialization, following the spec's words: the block
counter as an 8-byte fixed-width integer with the most-significant byte
first (big-endian within the field). -/
def counterBigEndianBytes (n : Nat) : List Nat :=
  [n / 2 ^ 56 % 2 ^ 8, n / 2 ^ 48 % 2 ^ 8, n / 2 ^ 40 % 2 ^ 8, n / 2 ^ 32 % 2 ^ 8,
   n / 2 ^ 24 % 2 ^ 8, n / 2 ^ 16 % 2 ^ 8, n / 2 ^ 8 % 2 ^ 8, n % 2 ^ 8]

/-- Fixed-width hexadecimal digits of `n`, most significant first: `k`
digits, the value taken modulo `16 ^ k`. -/
def hexDigitsFix : Nat → Nat → List Nat
  | 0, _ => []
  | k + 1, n => hexDigitsFix k (n / 16) ++ [n % 16]

/-! ## Helper lemmas -/

lemma leftRotate_lt (a n : Nat) : leftRotate a n < 2 ^ 32 :=
  Nat.mod_lt _ (by norm_num)

lemma sumWords_lt (a b : Nat) : sumWords a b < 2 ^ 32 :=
  Nat.mod_lt _ (by norm_num)

lemma xorWords_eq {a b : Nat} (ha : a < 2 ^ 32) (hb : b < 2 ^ 32) :
    xorWords a b = a ^^^ b :=
  Nat.mod_eq_of_lt (Nat.xor_lt_two_pow ha hb)

lemma getD_lt_of_forall {l : List Nat} {c : Nat} (h : ∀ b ∈ l, b < c)
    (hc : 0 < c) (i : Nat) : l.getD i 0 < c := by
  by_cases hi : i < l.length
  · rw [List.getD_eq_getElem l 0 hi]
    exact h _ (List.getElem_mem hi)
  · rw [List.getD_eq_default l 0 (by omega)]
    exact hc

lemma littleEndian_eq {b0 b1 b2 b3 : Nat} (h0 : b0 < 2 ^ 8) (h1 : b1 < 2 ^ 8)
    (h2 : b2 < 2 ^ 8) (h3 : b3 < 2 ^ 8) :
    littleEndian b0 b1 b2 b3 = b0 + 2 ^ 8 * b1 + 2 ^ 16 * b2 + 2 ^ 24 * b3 := by
  simp only [littleEndian]
  norm_num
  omega

lemma foldl_append_eq_flatMap {α β : Type} (f : α → List β) :
    ∀ (l : List α) (acc : List β),
      l.foldl (fun a b => a ++ f b) acc = acc ++ l.flatMap f := by
  intro l
  induction l with
  | nil => simp
  | cons x l ih => intro acc; simp [ih, List.append_assoc]

lemma hash_length (x : List Nat) : (hash x).length = 64 := by
  simp [hash, List.length_flatMap, littleEndianInverse, Function.comp_def]

lemma expansion_length (nonce key0 key1 : List Nat) :
    (expansion nonce key0 key1).length = 64 := by
  unfold expansion
  split <;> exact hash_length _

lemma generateKeystream_eq (key : List Nat) (L : Nat) (nonce : List Nat) (c : Nat) :
    generateKeystream key L nonce c =
      (List.range ((L + 63) / 64)).flatMap (fun b =>
        expansion
          (updateArray (updateArray (List.replicate 16 0) nonce 0)
            (numToEightByteArray (c + b)) 8)
          (splitKey key).1 (splitKey key).2) := by
  unfold generateKeystream
  rw [foldl_append_eq_flatMap]
  simp

lemma flatMap_length_const {α : Type} (l : List α) (f : α → List Nat)
    (k : Nat) (h : ∀ a ∈ l, (f a).length = k) :
    (l.flatMap f).length = k * l.length := by
  induction l with
  | nil => simp
  | cons x l ih =>
      simp only [List.flatMap_cons, List.length_append, List.length_cons]
      rw [h x (by simp), ih (fun a ha => h a (by simp [ha]))]
      ring

lemma generateKeystream_length (key : List Nat) (L : Nat) (nonce : List Nat)
    (c : Nat) : (generateKeystream key L nonce c).length = 64 * ((L + 63) / 64) := by
  rw [generateKeystream_eq,
    flatMap_length_const _ _ 64 (fun a _ => expansion_length _ _ _)]
  simp

lemma updateArray_cons (src : List Nat) : ∀ (arr : List Nat) (v n : Nat),
    updateArray (v :: arr) src (n + 1) = v :: updateArray arr src n := by
  induction src with
  | nil => intro arr v n; rfl
  | cons w src ih =>
      intro arr v n
      show updateArray ((v :: arr).set (n + 1) w) src (n + 2) =
        v :: updateArray (arr.set n w) src (n + 1)
      rw [List.set_cons_succ]
      exact ih (arr.set n w) v (n + 1)

lemma updateArray_zero : ∀ (src arr : List Nat), src.length ≤ arr.length →
    updateArray arr src 0 = src ++ arr.drop src.length := by
  intro src
  induction src with
  | nil => intro arr _; simp [updateArray]
  | cons v src ih =>
      intro arr h
      match arr with
      | [] => simp at h
      | a :: arr =>
          show updateArray ((a :: arr).set 0 v) src 1 =
            v :: src ++ (a :: arr).drop (src.length + 1)
          rw [List.set_cons_zero]
          have h1 : updateArray (v :: arr) src 1 = v :: updateArray arr src 0 :=
            updateArray_cons src arr v 0
          rw [h1, ih arr (by simpa using h)]
          simp

lemma updateArray_append (pre : List Nat) : ∀ (arr src : List Nat) (n : Nat),
    updateArray (pre ++ arr) src (pre.length + n) = pre ++ updateArray arr src n := by
  induction pre with
  | nil => simp
  | cons p pre ih =>
      intro arr src n
      show updateArray (p :: (pre ++ arr)) src (pre.length + 1 + n) =
        p :: (pre ++ updateArray arr src n)
      rw [show pre.length + 1 + n = pre.length + n + 1 by omega]
      rw [updateArray_cons, ih]

lemma updateArray_step (pre rest src : List Nat) (k m : Nat)
    (hk : pre.length = k) (hm : src.length = m) (hrest : m ≤ rest.length) :
    updateArray (pre ++ rest) src k = (pre ++ src) ++ rest.drop m := by
  subst hk hm
  have h := updateArray_append pre rest src 0
  rw [Nat.add_zero] at h
  rw [h, updateArray_zero src rest hrest, List.append_assoc]

lemma build64 (s0 s1 s2 s3 ka kb n16 : List Nat)
    (h0 : s0.length = 4) (h1 : s1.length = 4) (h2 : s2.length = 4)
    (h3 : s3.length = 4) (hka : ka.length = 16) (hkb : kb.length = 16)
    (hn : n16.length = 16) :
    updateArray (updateArray (updateArray (updateArray (updateArray
      (updateArray (updateArray (List.replicate 64 0) s0 0) ka 4)
      s1 20) n16 24) s2 40) kb 44) s3 60 =
    s0 ++ (ka ++ (s1 ++ (n16 ++ (s2 ++ (kb ++ s3))))) := by
  have e1 : updateArray (List.replicate 64 0) s0 0 = s0 ++ List.replicate 60 0 := by
    rw [updateArray_zero s0 _ (by simp [h0]), h0]
    norm_num [List.drop_replicate]
  have e2 : updateArray (s0 ++ List.replicate 60 0) ka 4 =
      (s0 ++ ka) ++ List.replicate 44 0 := by
    rw [updateArray_step s0 _ ka 4 16 h0 hka (by simp)]
    norm_num [List.drop_replicate]
  have e3 : updateArray ((s0 ++ ka) ++ List.replicate 44 0) s1 20 =
      ((s0 ++ ka) ++ s1) ++ List.replicate 40 0 := by
    rw [updateArray_step (s0 ++ ka) _ s1 20 4 (by simp [h0, hka]) h1 (by simp)]
    norm_num [List.drop_replicate]
  have e4 : updateArray (((s0 ++ ka) ++ s1) ++ List.replicate 40 0) n16 24 =
      (((s0 ++ ka) ++ s1) ++ n16) ++ List.replicate 24 0 := by
    rw [updateArray_step ((s0 ++ ka) ++ s1) _ n16 24 16
      (by simp [h0, hka, h1]) hn (by simp)]
    norm_num [List.drop_replicate]
  have e5 : updateArray ((((s0 ++ ka) ++ s1) ++ n16) ++ List.replicate 24 0) s2 40 =
      ((((s0 ++ ka) ++ s1) ++ n16) ++ s2) ++ List.replicate 20 0 := by
    rw [updateArray_step (((s0 ++ ka) ++ s1) ++ n16) _ s2 40 4
      (by simp [h0, hka, h1, hn]) h2 (by simp)]
    norm_num [List.drop_replicate]
  have e6 : updateArray (((((s0 ++ ka) ++ s1) ++ n16) ++ s2) ++ List.replicate 20 0) kb 44 =
      (((((s0 ++ ka) ++ s1) ++ n16) ++ s2) ++ kb) ++ List.replicate 4 0 := by
    rw [updateArray_step ((((s0 ++ ka) ++ s1) ++ n16) ++ s2) _ kb 44 16
      (by simp [h0, hka, h1, hn, h2]) hkb (by simp)]
    norm_num [List.drop_replicate]
  have e7 : updateArray ((((((s0 ++ ka) ++ s1) ++ n16) ++ s2) ++ kb) ++
        List.replicate 4 0) s3 60 =
      ((((((s0 ++ ka) ++ s1) ++ n16) ++ s2) ++ kb) ++ s3) := by
    rw [updateArray_step (((((s0 ++ ka) ++ s1) ++ n16) ++ s2) ++ kb) _ s3 60 4
      (by simp [h0, hka, h1, hn, h2, hkb]) h3 (by simp)]
    simp [List.drop_replicate]
  rw [e1, e2, e3, e4, e5, e6, e7]
  simp [List.append_assoc]

lemma hash_mem_lt {b : Nat} {x : List Nat} (h : b ∈ hash x) : b < 2 ^ 8 := by
  simp only [hash, List.mem_flatMap, littleEndianInverse, List.mem_cons,
    List.not_mem_nil, or_false] at h
  obtain ⟨i, -, h⟩ := h
  rcases h with h | h | h | h <;> subst h <;>
    exact Nat.mod_lt _ (by norm_num)

lemma expansion_mem_lt {b : Nat} {nonce key0 key1 : List Nat}
    (h : b ∈ expansion nonce key0 key1) : b < 2 ^ 8 := by
  simp only [expansion] at h
  split at h <;> exact hash_mem_lt h

lemma generateKeystream_mem_lt {b : Nat} {key : List Nat} {L : Nat}
    {nonce : List Nat} {c : Nat} (h : b ∈ generateKeystream key L nonce c) :
    b < 2 ^ 8 := by
  rw [generateKeystream_eq] at h
  simp only [List.mem_flatMap] at h
  obtain ⟨a, -, h⟩ := h
  exact expansion_mem_lt h

lemma getD_map_range {f : Nat → Nat} {n i : Nat} (h : i < n) :
    ((List.range n).map f).getD i 0 = f i := by
  rw [List.getD_eq_getElem _ _ (by simpa using h), List.getElem_map,
    List.getElem_range]

lemma xorKeystreamAndMessage_length (ks msg : List Nat) (len : Nat) :
    (xorKeystreamAndMessage ks msg len).length = len := by
  simp [xorKeystreamAndMessage]

lemma hexDigitsFix_zero : ∀ k, hexDigitsFix k 0 = List.replicate k 0 := by
  intro k
  induction k with
  | zero => rfl
  | succ k ih =>
      show hexDigitsFix k (0 / 16) ++ [0 % 16] = _
      rw [Nat.zero_div, ih, Nat.zero_mod, ← List.replicate_succ']

lemma leftPadding_append_one (xs : List Nat) (d k : Nat) :
    leftPadding (xs ++ [d]) (k + 1) = leftPadding xs k ++ [d] := by
  simp only [leftPadding, List.length_append, List.length_cons, List.length_nil,
    Nat.zero_add]
  by_cases h : k ≤ xs.length
  · rw [if_pos (by omega), if_pos h]
  · rw [if_neg (by omega), if_neg h]
    have he : k + 1 - (xs.length + 1) = k - xs.length := by omega
    rw [he, List.append_assoc]

lemma toHexDigitsAux_pad : ∀ (k n fuel : Nat), n ≤ fuel → n < 16 ^ k → 1 ≤ k →
    leftPadding (toHexDigitsAux fuel n) k = hexDigitsFix k n := by
  intro k
  induction k with
  | zero => intro n fuel _ _ h; omega
  | succ k ih =>
      intro n fuel hfuel hlt _
      match fuel with
      | 0 =>
          have hn : n = 0 := by omega
          subst hn
          show leftPadding [0 % 16] (k + 1) = hexDigitsFix (k + 1) 0
          rw [hexDigitsFix_zero]
          simp only [leftPadding, List.length_cons, List.length_nil, Nat.zero_add]
          by_cases hk : k + 1 ≤ 1
          · rw [if_pos hk]
            have h0 : k = 0 := by omega
            subst h0
            rfl
          · rw [if_neg hk]
            have he : k + 1 - 1 = k := by omega
            rw [he, Nat.zero_mod, ← List.replicate_succ']
      | fuel + 1 =>
          by_cases hsmall : n < 16
          · show leftPadding (if n < 16 then [n]
              else toHexDigitsAux fuel (n / 16) ++ [n % 16]) (k + 1) = _
            rw [if_pos hsmall]
            show leftPadding [n] (k + 1) = hexDigitsFix k (n / 16) ++ [n % 16]
            rw [Nat.div_eq_of_lt hsmall, Nat.mod_eq_of_lt hsmall, hexDigitsFix_zero]
            simp only [leftPadding, List.length_cons, List.length_nil, Nat.zero_add]
            by_cases hk : k + 1 ≤ 1
            · rw [if_pos hk]
              have h0 : k = 0 := by omega
              subst h0
              simp
            · rw [if_neg hk]
              have he : k + 1 - 1 = k := by omega
              rw [he]
          · show leftPadding (if n < 16 then [n]
              else toHexDigitsAux fuel (n / 16) ++ [n % 16]) (k + 1) = _
            rw [if_neg hsmall, leftPadding_append_one]
            show leftPadding (toHexDigitsAux fuel (n / 16)) k ++ [n % 16] =
              hexDigitsFix k (n / 16) ++ [n % 16]
            have hk1 : 1 ≤ k := by
              by_contra hk
              have h0 : k = 0 := by omega
              subst h0
              rw [pow_one] at hlt
              omega
            rw [ih (n / 16) fuel
              (by
                have := Nat.div_lt_self (show 0 < n by omega) (show 1 < 16 by omega)
                omega)
              (by
                have hp : (16 : Nat) ^ (k + 1) = 16 * 16 ^ k := by ring
                rw [hp] at hlt
                exact Nat.div_lt_of_lt_mul hlt)
              hk1]

lemma hexDigitsFix_length : ∀ (k n : Nat), (hexDigitsFix k n).length = k := by
  intro k
  induction k with
  | zero => intro n; rfl
  | succ k ih =>
      intro n
      show (hexDigitsFix k (n / 16) ++ [n % 16]).length = k + 1
      simp [ih]

lemma hexDigitsFix_add (j : Nat) : ∀ (k n : Nat),
    hexDigitsFix (j + k) n = hexDigitsFix j (n / 16 ^ k) ++ hexDigitsFix k n := by
  intro k
  induction k with
  | zero => intro n; simp [hexDigitsFix]
  | succ k ih =>
      intro n
      show hexDigitsFix (j + k) (n / 16) ++ [n % 16] =
        hexDigitsFix j (n / 16 ^ (k + 1)) ++ (hexDigitsFix k (n / 16) ++ [n % 16])
      rw [ih (n / 16), List.append_assoc]
      congr 2
      rw [Nat.div_div_eq_div_mul]
      congr 1
      ring

lemma hexPairsToBytes_append : ∀ (xs ys : List Nat), xs.length % 2 = 0 →
    hexPairsToBytes (xs ++ ys) = hexPairsToBytes xs ++ hexPairsToBytes ys
  | [], _, _ => rfl
  | [x], _, h => by simp at h
  | x :: y :: xs, ys, h => by
      show (x * 16 + y) :: hexPairsToBytes (xs ++ ys) =
        (x * 16 + y) :: (hexPairsToBytes xs ++ hexPairsToBytes ys)
      rw [hexPairsToBytes_append xs ys (by simp only [List.length_cons] at h; omega)]

lemma numToEightByteArray_eq (n : Nat) (h : n < 2 ^ 64) :
    numToEightByteArray n = counterBigEndianBytes n := by
  have hpad : leftPadding (toHexDigitsAux n n) 16 = hexDigitsFix 16 n :=
    toHexDigitsAux_pad 16 n n le_rfl
      (by rw [show (16 : Nat) ^ 16 = 2 ^ 64 by norm_num]; exact h) (by norm_num)
  show hexPairsToBytes (leftPadding (toHexDigitsAux n n) 16) = _
  rw [hpad]
  have hsplit : hexDigitsFix 16 n = hexDigitsFix 8 (n / 16 ^ 8) ++ hexDigitsFix 8 n :=
    hexDigitsFix_add 8 8 n
  rw [hsplit, hexPairsToBytes_append _ _ (by rw [hexDigitsFix_length])]
  have h1 : hexPairsToBytes (hexDigitsFix 8 (n / 16 ^ 8)) =
      [((n / 16 ^ 8) / 16 / 16 / 16 / 16 / 16 / 16 / 16 % 16) * 16 + (n / 16 ^ 8) / 16 / 16 / 16 / 16 / 16 / 16 % 16,
       ((n / 16 ^ 8) / 16 / 16 / 16 / 16 / 16 % 16) * 16 + (n / 16 ^ 8) / 16 / 16 / 16 / 16 % 16,
       ((n / 16 ^ 8) / 16 / 16 / 16 % 16) * 16 + (n / 16 ^ 8) / 16 / 16 % 16,
       ((n / 16 ^ 8) / 16 % 16) * 16 + (n / 16 ^ 8) % 16] := rfl
  have h2 : hexPairsToBytes (hexDigitsFix 8 n) =
      [(n / 16 / 16 / 16 / 16 / 16 / 16 / 16 % 16) * 16 + n / 16 / 16 / 16 / 16 / 16 / 16 % 16,
       (n / 16 / 16 / 16 / 16 / 16 % 16) * 16 + n / 16 / 16 / 16 / 16 % 16,
       (n / 16 / 16 / 16 % 16) * 16 + n / 16 / 16 % 16,
       (n / 16 % 16) * 16 + n % 16] := rfl
  rw [h1, h2]
  simp only [counterBigEndianBytes, List.cons_append, List.nil_append,
    List.cons.injEq, and_true]
  norm_num
  omega

lemma flatMap_range_shift (g : Nat → List Nat) (hlen : ∀ x, (g x).length = 64)
    (n1 n2 c k : Nat) (h : k + n1 ≤ n2) :
    (List.range n1).flatMap (fun b => g (c + k + b)) =
      (((List.range n2).flatMap (fun b => g (c + b))).drop (64 * k)).take
        (64 * n1) := by
  have h2 : n2 = k + (n2 - k) := by omega
  rw [h2, List.range_add, List.flatMap_append, List.flatMap_map]
  have hlen1 : ((List.range k).flatMap (fun b => g (c + b))).length = 64 * k := by
    rw [flatMap_length_const _ _ 64 (fun a _ => hlen _)]; simp
  rw [← hlen1, List.drop_left]
  have h3 : n2 - k = n1 + (n2 - k - n1) := by omega
  rw [h3, List.range_add, List.flatMap_append]
  have hlen2 : ((List.range n1).flatMap (fun a => g (c + (k + a)))).length =
      64 * n1 := by
    rw [flatMap_length_const _ _ 64 (fun a _ => hlen _)]; simp
  rw [← hlen2, List.take_left]
  refine List.flatMap_congr (fun b _ => ?_)
  show g (c + k + b) = g (c + (k + b))
  rw [Nat.add_assoc]

/-! ## Claim theorems -/

/-- C3: for all 32-bit words y0..y3, quarterRound returns (z0, z1, z2, z3)
computed in the order z1, z2, z3, z0 with all additions mod 2^32:
z1 = y1 xor rotl(y0+y3, 7), z2 = y2 xor rotl(z1+y0, 9),
z3 = y3 xor rotl(z2+z1, 13), z0 = y0 xor rotl(z3+z2, 18); in particular it
maps [0x00000001, 0, 0, 0] to [0x08008145, 0x00000080, 0x00010200, 0x20500000]. -/
theorem quarterRound_spec (y0 y1 y2 y3 : Nat) (h0 : y0 < 2 ^ 32)
    (h1 : y1 < 2 ^ 32) (h2 : y2 < 2 ^ 32) (h3 : y3 < 2 ^ 32) :
    (quarterRound y0 y1 y2 y3).2.1 = y1 ^^^ leftRotate ((y0 + y3) % 2 ^ 32) 7 ∧
    (quarterRound y0 y1 y2 y3).2.2.1 =
      y2 ^^^ leftRotate (((quarterRound y0 y1 y2 y3).2.1 + y0) % 2 ^ 32) 9 ∧
    (quarterRound y0 y1 y2 y3).2.2.2 =
      y3 ^^^ leftRotate (((quarterRound y0 y1 y2 y3).2.2.1 +
        (quarterRound y0 y1 y2 y3).2.1) % 2 ^ 32) 13 ∧
    (quarterRound y0 y1 y2 y3).1 =
      y0 ^^^ leftRotate (((quarterRound y0 y1 y2 y3).2.2.2 +
        (quarterRound y0 y1 y2 y3).2.2.1) % 2 ^ 32) 18 ∧
    quarterRound 1 0 0 0 = (0x08008145, 0x00000080, 0x00010200, 0x20500000) := by
  refine ⟨?_, ?_, ?_, ?_, by decide⟩ <;>
    simp only [quarterRound] <;>
    rw [xorWords_eq (by assumption) (leftRotate_lt _ _)] <;>
    simp only [sumWords]

/-- C4: rowRound applies quarterRound to the index groups (0,1,2,3),
(5,6,7,4), (10,11,8,9), (15,12,13,14) writing the four results back to those
same positions, and columnRound to (0,4,8,12), (5,9,13,1), (10,14,2,6),
(15,3,7,11); all four applications read the pre-transform state and write
into a new state buffer (the spec-side definitions build a fresh buffer). -/
theorem rowRound_columnRound_spec (y : List Nat) :
    rowRound y = rowRoundSpec y ∧ columnRound y = columnRoundSpec y := by
  constructor <;> rfl

/-- C8: generateKeystream returns exactly 64 * ceil(L / 64) bytes for a
requested minimum length L; in particular requesting length 53 returns
exactly 64 bytes and requesting length 77 returns exactly 128 bytes. -/
theorem generateKeystream_length_spec :
    (∀ (key : List Nat) (L : Nat) (nonce : List Nat) (c : Nat),
      (generateKeystream key L nonce c).length = 64 * ((L + 63) / 64)) ∧
    (generateKeystream (List.replicate 16 0) 53 (List.replicate 8 0) 0).length = 64 ∧
    (generateKeystream (List.replicate 32 0) 77 (List.replicate 8 0) 0).length = 128 := by
  refine ⟨generateKeystream_length, ?_, ?_⟩ <;> rw [generateKeystream_length]

/-- C2: for every 16- or 32-byte key, 8-byte nonce, in-range counter and
byte message m, applying the core encryption twice with identical
key/nonce/counter returns m (the operation is an involution, so decrypt of
encrypt recovers the plaintext), and the output always has exactly the
length of the input message. -/
theorem encryption_involution (key m nonce : List Nat) (c : Nat)
    (_hkey : key.length = 16 ∨ key.length = 32) (_hnonce : nonce.length = 8)
    (_hc : c ≤ maxInteger) (hm : ∀ b ∈ m, b < 2 ^ 8) :
    encryption key (encryption key m nonce c) nonce c = m ∧
    (encryption key m nonce c).length = m.length := by
  have hlen : ∀ (msg : List Nat), (encryption key msg nonce c).length = msg.length := by
    intro msg; simp [encryption, xorKeystreamAndMessage_length]
  refine ⟨?_, hlen m⟩
  simp only [encryption, xorKeystreamAndMessage_length]
  apply List.ext_getElem
  · simp [xorKeystreamAndMessage_length]
  · intro i h1 h2
    simp only [xorKeystreamAndMessage, List.getElem_map, List.getElem_range]
    rw [getD_map_range h2]
    have ha : (generateKeystream key m.length nonce c).getD i 0 < 2 ^ 8 :=
      getD_lt_of_forall (fun b hb => generateKeystream_mem_lt hb) (by norm_num) i
    have hb : m.getD i 0 < 2 ^ 8 := getD_lt_of_forall hm (by norm_num) i
    rw [Nat.mod_eq_of_lt (Nat.xor_lt_two_pow ha hb), ← Nat.xor_assoc,
      Nat.xor_self, Nat.zero_xor, Nat.mod_eq_of_lt hb]
    exact List.getD_eq_getElem m 0 h2

/-- Witness for C2: the involution and length preservation at a concrete
three-byte message under a 16-byte zero key and zero nonce. -/
theorem encryption_involution_witness :
    encryption (List.replicate 16 0)
      (encryption (List.replicate 16 0) [10, 20, 30] (List.replicate 8 0) 0)
      (List.replicate 8 0) 0 = [10, 20, 30] ∧
    (encryption (List.replicate 16 0) [10, 20, 30] (List.replicate 8 0) 0).length =
      ([10, 20, 30] : List Nat).length :=
  encryption_involution (List.replicate 16 0) [10, 20, 30] (List.replicate 8 0) 0
    (by decide) (by decide) (by decide) (by decide)

/-- Witness for C3: the quarter-round equations instantiated at the
concrete words 1, 2, 3, 4. -/
theorem quarterRound_spec_witness :
    (quarterRound 1 2 3 4).2.1 = 2 ^^^ leftRotate ((1 + 4) % 2 ^ 32) 7 ∧
    (quarterRound 1 2 3 4).2.2.1 =
      3 ^^^ leftRotate (((quarterRound 1 2 3 4).2.1 + 1) % 2 ^ 32) 9 ∧
    (quarterRound 1 2 3 4).2.2.2 =
      4 ^^^ leftRotate (((quarterRound 1 2 3 4).2.2.1 +
        (quarterRound 1 2 3 4).2.1) % 2 ^ 32) 13 ∧
    (quarterRound 1 2 3 4).1 =
      1 ^^^ leftRotate (((quarterRound 1 2 3 4).2.2.2 +
        (quarterRound 1 2 3 4).2.2.1) % 2 ^ 32) 18 ∧
    quarterRound 1 0 0 0 = (0x08008145, 0x00000080, 0x00010200, 0x20500000) :=
  quarterRound_spec 1 2 3 4 (by decide) (by decide) (by decide) (by decide)

/-- C1: for every 64-byte input, hash equals the spec-side composition
(decode 16 words little-endian, 10 doubleRounds, feed-forward addition
mod 2^32, littleEndianInverse encoding in index order); in particular hash
of 64 zero bytes returns 64 zero bytes. -/
theorem hash_spec_eq (x : List Nat) (_hlen : x.length = 64)
    (hbytes : ∀ b ∈ x, b < 2 ^ 8) :
    hash x = hashSpec x ∧ hash (List.replicate 64 0) = List.replicate 64 0 := by
  refine ⟨?_, by decide⟩
  simp only [hash, hashSpec]
  have hx : (List.range 16).map (fun j =>
        littleEndian (x.getD (4 * j) 0) (x.getD (4 * j + 1) 0)
          (x.getD (4 * j + 2) 0) (x.getD (4 * j + 3) 0)) =
      (List.range 16).map (fun j =>
        x.getD (4 * j) 0 + 2 ^ 8 * x.getD (4 * j + 1) 0 +
          2 ^ 16 * x.getD (4 * j + 2) 0 + 2 ^ 24 * x.getD (4 * j + 3) 0) := by
    refine List.map_congr_left (fun j _ => ?_)
    exact littleEndian_eq (getD_lt_of_forall hbytes (by norm_num) _)
      (getD_lt_of_forall hbytes (by norm_num) _)
      (getD_lt_of_forall hbytes (by norm_num) _)
      (getD_lt_of_forall hbytes (by norm_num) _)
  rw [hx]
  simp only [sumWords]

/-- Witness for C1: the hash/spec agreement at the all-255 input and the
zero-input fact. -/
theorem hash_spec_eq_witness :
    hash (List.replicate 64 255) = hashSpec (List.replicate 64 255) ∧
    hash (List.replicate 64 0) = List.replicate 64 0 :=
  hash_spec_eq (List.replicate 64 255) (by decide) (by decide)

/-- C9: for otherwise-valid inputs, when the message is longer than
(2^53 - 1 - counter) * 64 + 64 bytes the public encrypt call fails as a
whole with an error and produces no output; otherwise parseCounter returns
the counter unchanged and the call proceeds to the core encryption. -/
theorem encrypt_counter_overflow (key msg nonce : List Nat) (counter : Int)
    (hkey : key.length = 16 ∨ key.length = 32)
    (hmsg : msg.length ≤ maxInteger * outputByteLength)
    (hnonce : nonce.length = 8) (hc : 0 ≤ counter) :
    ((msg.length : Int) > ((maxInteger : Int) - counter) * 64 + 64 →
      ∃ e, encrypt key msg nonce counter = Except.error e) ∧
    ((msg.length : Int) ≤ ((maxInteger : Int) - counter) * 64 + 64 →
      parseCounter counter msg.length = Except.ok counter.toNat ∧
      encrypt key msg nonce counter =
        Except.ok (encryption key msg nonce counter.toNat)) := by
  constructor
  · intro hover
    refine ⟨"The message is longer than the number of keystream bytes that can be generated from this start counter position", ?_⟩
    simp [encrypt, parseKey, parseMessage, parseNonce, parseCounter, hkey,
      hnonce, hc.not_lt, hover, Bind.bind, Except.bind, Nat.not_lt.mpr hmsg,
      Nat.lt_iff_add_one_le]
  · intro hok
    constructor
    · simp [parseCounter, hc.not_lt, Int.not_lt.mpr hok]
    · simp [encrypt, parseKey, parseMessage, parseNonce, parseCounter, hkey,
        hnonce, hc.not_lt, Int.not_lt.mpr hok, Bind.bind, Except.bind,
        Nat.not_lt.mpr hmsg, Pure.pure, Except.pure]

/-- C5: with a 16-byte nonce field and 16-byte key halves, expansion hashes
sigma0 || key0 || sigma1 || nonce16 || sigma2 || key1 || sigma3 when key1 is
non-empty, and tau0 || key0 || tau1 || nonce16 || tau2 || key0 || tau3 when
key1 is empty (key0 in both key slots), where sigma and tau are the ASCII
quarters of the 32-byte and 16-byte expansion labels. -/
theorem expansion_spec (nonce key0 key1 : List Nat) (hn : nonce.length = 16)
    (hk0 : key0.length = 16) :
    (key1.length = 16 →
      expansion nonce key0 key1 =
        hash ([101, 120, 112, 97] ++ (key0 ++ ([110, 100, 32, 51] ++ (nonce ++
          ([50, 45, 98, 121] ++ (key1 ++ [116, 101, 32, 107]))))))) ∧
    expansion nonce key0 [] =
      hash ([101, 120, 112, 97] ++ (key0 ++ ([110, 100, 32, 49] ++ (nonce ++
        ([54, 45, 98, 121] ++ (key0 ++ [116, 101, 32, 107])))))) ∧
    constants32.flatMap (fun l => l) = "expand 32-byte k".data.map Char.toNat ∧
    constants16.flatMap (fun l => l) = "expand 16-byte k".data.map Char.toNat := by
  refine ⟨?_, ?_, by decide, by decide⟩
  · intro hk1
    simp only [expansion]
    rw [if_pos (show key1.length ≠ 0 by omega)]
    rw [show constants32.getD 0 [] = [101, 120, 112, 97] from rfl,
      show constants32.getD 1 [] = [110, 100, 32, 51] from rfl,
      show constants32.getD 2 [] = [50, 45, 98, 121] from rfl,
      show constants32.getD 3 [] = [116, 101, 32, 107] from rfl,
      build64 [101, 120, 112, 97] [110, 100, 32, 51] [50, 45, 98, 121]
        [116, 101, 32, 107] key0 key1 nonce rfl rfl rfl rfl hk0 hk1 hn]
  · simp only [expansion]
    rw [if_neg (show ¬ (([] : List Nat).length ≠ 0) by simp)]
    rw [show constants16.getD 0 [] = [101, 120, 112, 97] from rfl,
      show constants16.getD 1 [] = [110, 100, 32, 49] from rfl,
      show constants16.getD 2 [] = [54, 45, 98, 121] from rfl,
      show constants16.getD 3 [] = [116, 101, 32, 107] from rfl,
      build64 [101, 120, 112, 97] [110, 100, 32, 49] [54, 45, 98, 121]
        [116, 101, 32, 107] key0 key0 nonce rfl rfl rfl rfl hk0 hk0 hn]

/-- Witness for C5: the expansion layout at concrete 16-byte key halves and
a concrete 16-byte nonce field. -/
theorem expansion_spec_witness :
    expansion (List.replicate 16 3) (List.replicate 16 1) (List.replicate 16 2) =
      hash ([101, 120, 112, 97] ++ (List.replicate 16 1 ++ ([110, 100, 32, 51] ++
        (List.replicate 16 3 ++ ([50, 45, 98, 121] ++ (List.replicate 16 2 ++
          [116, 101, 32, 107])))))) ∧
    expansion (List.replicate 16 3) (List.replicate 16 1) [] =
      hash ([101, 120, 112, 97] ++ (List.replicate 16 1 ++ ([110, 100, 32, 49] ++
        (List.replicate 16 3 ++ ([54, 45, 98, 121] ++ (List.replicate 16 1 ++
          [116, 101, 32, 107])))))) :=
  ⟨(expansion_spec (List.replicate 16 3) (List.replicate 16 1)
      (List.replicate 16 2) (by decide) (by decide)).1 (by decide),
   (expansion_spec (List.replicate 16 3) (List.replicate 16 1)
      (List.replicate 16 2) (by decide) (by decide)).2.1⟩

/-- C6: every block of generateKeystream feeds expansion the 16-byte field
holding the 8-byte nonce followed by the current block counter as 8 bytes
most-significant-byte-first (big-endian within the field, unlike the
little-endian word codec), the counter starting at the caller value and
incrementing by exactly 1 per 64-byte block. -/
theorem generateKeystream_counter_field (key : List Nat) (L : Nat)
    (nonce : List Nat) (c : Nat) (hnonce : nonce.length = 8)
    (hc : c + (L + 63) / 64 ≤ 2 ^ 64) :
    generateKeystream key L nonce c =
      (List.range ((L + 63) / 64)).flatMap (fun b =>
        expansion (nonce ++ counterBigEndianBytes (c + b))
          (splitKey key).1 (splitKey key).2) := by
  rw [generateKeystream_eq]
  refine List.flatMap_congr (fun b hb => ?_)
  have hblt : b < (L + 63) / 64 := List.mem_range.mp hb
  congr 1
  rw [numToEightByteArray_eq (c + b) (by omega)]
  have hinner : updateArray (List.replicate 16 0) nonce 0 =
      nonce ++ List.replicate 8 0 := by
    rw [updateArray_zero nonce _ (by simp [hnonce]), hnonce]
    norm_num [List.drop_replicate]
  rw [hinner, updateArray_step nonce (List.replicate 8 0)
    (counterBigEndianBytes (c + b)) 8 8 hnonce rfl (by simp)]
  simp [List.drop_replicate]

/-- Witness for C6: the keystream/field structure at a 16-byte zero key,
zero nonce and start counter 5 for one block. -/
theorem generateKeystream_counter_field_witness :
    generateKeystream (List.replicate 16 0) 64 (List.replicate 8 0) 5 =
      (List.range ((64 + 63) / 64)).flatMap (fun b =>
        expansion (List.replicate 8 0 ++ counterBigEndianBytes (5 + b))
          (splitKey (List.replicate 16 0)).1
          (splitKey (List.replicate 16 0)).2) :=
  generateKeystream_counter_field (List.replicate 16 0) 64 (List.replicate 8 0) 5
    (by decide) (by decide)

/-- C7: the keystream is block-addressable: generateKeystream at start
counter C + k equals the sub-slice of a keystream started at counter C,
at byte offset 64 * k, whenever 64 * k + 64 * ceil(L1/64) fits inside
64 * ceil(L2/64); with k = 0 this is the prefix law, and k = 2, L1 = 256,
L2 = 384 is the concrete seek law of the spec. -/
theorem generateKeystream_block_addressable (key : List Nat) (L1 L2 : Nat)
    (nonce : List Nat) (c k : Nat)
    (h : 64 * k + 64 * ((L1 + 63) / 64) ≤ 64 * ((L2 + 63) / 64)) :
    generateKeystream key L1 nonce (c + k) =
      ((generateKeystream key L2 nonce c).drop (64 * k)).take
        (64 * ((L1 + 63) / 64)) := by
  rw [generateKeystream_eq, generateKeystream_eq]
  exact flatMap_range_shift
    (fun x => expansion (updateArray (updateArray (List.replicate 16 0) nonce 0)
      (numToEightByteArray x) 8) (splitKey key).1 (splitKey key).2)
    (fun x => expansion_length _ _ _) _ _ c k (by omega)

/-- Witness for C7: a keystream started at counter 2 for length 256 equals
bytes 128..383 of a keystream started at counter 0 for length 384. -/
theorem generateKeystream_block_addressable_witness :
    generateKeystream (List.replicate 16 0) 256 (List.replicate 8 0) (0 + 2) =
      ((generateKeystream (List.replicate 16 0) 384 (List.replicate 8 0) 0).drop
        (64 * 2)).take (64 * ((256 + 63) / 64)) :=
  generateKeystream_block_addressable (List.replicate 16 0) 256 384
    (List.replicate 8 0) 0 2 (by norm_num)

/-- Witness for C9: with a 16-byte zero key, 8-byte zero nonce and one-byte
message, counter 2^53 makes the call fail as a whole, while counter 0 is
returned unchanged by parseCounter and the call proceeds. -/
theorem encrypt_counter_overflow_witness :
    (∃ e, encrypt (List.replicate 16 0) [7] (List.replicate 8 0) (2 ^ 53) =
      Except.error e) ∧
    (parseCounter 0 1 = Except.ok ((0 : Int)).toNat ∧
      encrypt (List.replicate 16 0) [7] (List.replicate 8 0) 0 =
        Except.ok (encryption (List.replicate 16 0) [7] (List.replicate 8 0)
          ((0 : Int)).toNat)) := by
  constructor
  · exact (encrypt_counter_overflow (List.replicate 16 0) [7]
      (List.replicate 8 0) (2 ^ 53) (by decide) (by decide) (by decide)
      (by decide)).1 (by decide)
  · exact (encrypt_counter_overflow (List.replicate 16 0) [7]
      (List.replicate 8 0) 0 (by decide) (by decide) (by decide)
      (by decide)).2 (by decide)

/-- C10: parseCounter never checks the counter against the 2^53 - 1 maximum
directly: for every integer counter >= 0 it errors exactly when the message
length exceeds (2^53 - 1 - counter) * 64 + 64; with message length 0 it
accepts and returns counter = 2^53, one above the documented maximum, and
generateKeystream with length 0 returns an empty byte array. -/
theorem parseCounter_no_direct_max_check :
    (∀ (c : Int) (L : Nat), 0 ≤ c →
      ((∃ e, parseCounter c L = Except.error e) ↔
        (L : Int) > ((maxInteger : Int) - c) * 64 + 64)) ∧
    parseCounter (2 ^ 53) 0 = Except.ok (2 ^ 53) ∧
    (∀ (key nonce : List Nat) (c : Nat), generateKeystream key 0 nonce c = []) := by
  refine ⟨?_, by rfl, fun key nonce c => rfl⟩
  intro c L hc
  by_cases h : (L : Int) > ((maxInteger : Int) - c) * 64 + 64 <;>
    simp [parseCounter, hc.not_lt, h]

/-- Witness for C10: the error criterion instantiated at counter 0 with a
message long enough to overflow, together with the two concrete facts. -/
theorem parseCounter_no_direct_max_check_witness :
    ((∃ e, parseCounter 0 (2 ^ 60) = Except.error e) ↔
      ((2 ^ 60 : Nat) : Int) > ((maxInteger : Int) - 0) * 64 + 64) ∧
    parseCounter (2 ^ 53) 0 = Except.ok (2 ^ 53) ∧
    generateKeystream [] 0 [] 0 = [] :=
  ⟨parseCounter_no_direct_max_check.1 0 (2 ^ 60) (by decide),
   parseCounter_no_direct_max_check.2.1,
   parseCounter_no_direct_max_check.2.2 [] [] 0⟩

end Salsa20
